import Mathlib

/-!
Verification of the outbound message queue (`core/message_queue.go`).

The Go `MessageQueue` holds a map from sender address to a nonce-ordered
slice of queued messages.  We embed it shallowly: addresses are `Nat`,
the map is an association list (Go map keys are unique; iteration order
is irrelevant to every property proved here), `uint64` values are `Nat`
with arithmetic taken modulo `2 ^ 64` exactly where the Go code can
overflow, and each method becomes a pure function returning the new
state together with its results.  Locking and the metrics gauges are
dropped: every Go method is lock-for-the-whole-body, so the sequential
functions below are the linearized semantics.
-/

namespace MessageQueueSpec

/-- The modulus of Go's `uint64` arithmetic. -/
def U64 : Nat := 2 ^ 64

/-- `uint64` increment with wrap-around, as in `q[len(q)-1].Msg.Nonce + 1`. -/
def uadd1 (n : Nat) : Nat := (n + 1) % U64

/-- `uint64` decrement with wrap-around, as in `q[0].Msg.Nonce - 1`. -/
def usub1 (n : Nat) : Nat := (n + (U64 - 1)) % U64

/-- The parts of `types.SignedMessage` the queue reads: `From` (the sender
address, modelled as a `Nat`) and `Nonce` (a `uint64` value). -/
structure SignedMessage where
  sender : Nat
  nonce : Nat
  deriving DecidableEq

/-- `QueuedMessage`: a message and the stamp it was enqueued with. -/
structure QueuedMessage where
  msg : SignedMessage
  stamp : Nat
  deriving DecidableEq

/-- The `queues` field of `MessageQueue`: map from sender address to its
sequence, as an association list with unique keys. -/
abbrev MQ := List (Nat × List QueuedMessage)

/-- Go map read `mq.queues[a]`: the zero value (empty slice) when the key
is absent. -/
def mqFind : MQ → Nat → List QueuedMessage
  | [], _ => []
  | p :: rest, a => if p.1 = a then p.2 else mqFind rest a

/-- Go map write `mq.queues[a] = q`: replace the binding or add it. -/
def mqSet : MQ → Nat → List QueuedMessage → MQ
  | [], a, q => [(a, q)]
  | p :: rest, a, q => if p.1 = a then (a, q) :: rest else p :: mqSet rest a q

/-- Go `delete(mq.queues, a)`. -/
def mqDelete (m : MQ) (a : Nat) : MQ := m.filter (fun p => p.1 != a)

/-- `Enqueue`: append a message for its sender; when the sender's sequence
is non-empty the nonce must be exactly one greater (in `uint64`
arithmetic) than the last nonce present.  Returns the new state and the
error flag (`true` when the nonce check fails, in which case the state is
returned unchanged). -/
def Enqueue (m : MQ) (msg : SignedMessage) (stamp : Nat) : MQ × Bool :=
  let q := mqFind m msg.sender
  match q.getLast? with
  | some lastQ =>
    if msg.nonce ≠ uadd1 lastQ.msg.nonce then (m, true)
    else (mqSet m msg.sender (q ++ [⟨msg, stamp⟩]), false)
  | none => (mqSet m msg.sender (q ++ [⟨msg, stamp⟩]), false)

/-- `Requeue`: prepend a message for its sender; when the sender's sequence
is non-empty the nonce must be exactly one less (in `uint64` arithmetic)
than the first nonce present. -/
def Requeue (m : MQ) (msg : SignedMessage) (stamp : Nat) : MQ × Bool :=
  match mqFind m msg.sender with
  | [] => (mqSet m msg.sender [⟨msg, stamp⟩], false)
  | h :: t =>
    if msg.nonce ≠ usub1 h.msg.nonce then (m, true)
    else (mqSet m msg.sender (⟨msg, stamp⟩ :: h :: t), false)

/-- The results of `RemoveNext` together with the state after the call. -/
structure RemoveResult where
  mq : MQ
  msg : Option SignedMessage
  found : Bool
  err : Bool
  deriving DecidableEq

/-- `RemoveNext`: conditional pop of the front of `sender`'s sequence,
compared against `expectedNonce`. -/
def RemoveNext (m : MQ) (sender expectedNonce : Nat) : RemoveResult :=
  match mqFind m sender with
  | [] => ⟨m, none, false, false⟩
  | head :: rest =>
    if expectedNonce = head.msg.nonce then ⟨mqSet m sender rest, some head.msg, true, false⟩
    else if head.msg.nonce < expectedNonce then ⟨m, none, false, true⟩
    else ⟨m, none, false, false⟩

/-- `Clear`: remove all messages for one sender; returns the new state and
whether the sender had any messages. -/
def Clear (m : MQ) (sender : Nat) : MQ × Bool :=
  (mqDelete m sender, !(mqFind m sender).isEmpty)

/-- The per-sequence effect of `ExpireBefore`: a non-empty sequence whose
front stamp is below the threshold is replaced by the empty slice,
everything else is untouched. -/
def expireSeq (stamp : Nat) (q : List QueuedMessage) : List QueuedMessage :=
  match q with
  | [] => q
  | h :: _ => if h.stamp < stamp then [] else q

/-- `ExpireBefore`: for every sender whose non-empty sequence has front
stamp `< stamp`, move the whole sequence's messages into the returned
map and leave that sender's sequence empty (the key stays in the map). -/
def ExpireBefore (m : MQ) (stamp : Nat) : MQ × List (Nat × List SignedMessage) :=
  (m.map (fun p => (p.1, expireSeq stamp p.2)),
   m.filterMap (fun p =>
     match p.2 with
     | [] => none
     | h :: _ =>
       if h.stamp < stamp then some (p.1, p.2.map (fun qm => qm.msg)) else none))

/-- Lookup in the map returned by `ExpireBefore`. -/
def exFind : List (Nat × List SignedMessage) → Nat → Option (List SignedMessage)
  | [], _ => none
  | p :: rest, a => if p.1 = a then some p.2 else exFind rest a

/-- `LargestNonce`: the nonce of the back of the sender's sequence, or
`(0, false)` when it is empty or absent. -/
def LargestNonce (m : MQ) (sender : Nat) : Nat × Bool :=
  match (mqFind m sender).getLast? with
  | some lastQ => (lastQ.msg.nonce, true)
  | none => (0, false)

/-- `Queues`: the keys of the map, exactly as the Go loop collects them. -/
def Queues (m : MQ) : List Nat := m.map (fun p => p.1)

/-- `Size`: total number of messages across all senders. -/
def Size (m : MQ) : Nat := m.foldl (fun acc p => acc + p.2.length) 0

/-- `Oldest`: `0` when the map has no keys; otherwise the fold of the
minimum stamp over every message of every sequence, started at the
maximum `uint64` value, exactly as in the source. -/
def Oldest (m : MQ) : Nat :=
  match m with
  | [] => 0
  | _ :: _ =>
    m.foldl (fun acc p =>
      p.2.foldl (fun a2 qm => if qm.stamp < a2 then qm.stamp else a2) acc) (U64 - 1)

/-- `List`: the sender's sequence (the Go copy is identity under value
semantics). -/
def MQList (m : MQ) (sender : Nat) : List QueuedMessage := mqFind m sender

/-- Boolean check that consecutive nonces in a sequence step by one in
`uint64` arithmetic. -/
def contigb : List QueuedMessage → Bool
  | [] => true
  | [_] => true
  | a :: b :: t => (b.msg.nonce == uadd1 a.msg.nonce) && contigb (b :: t)

/-- Well-formedness of one sequence: wrap-around contiguity plus every
nonce being a `uint64` value. -/
def seqOK (q : List QueuedMessage) : Bool :=
  contigb q && q.all (fun qm => decide (qm.msg.nonce < U64))

/-- The queue invariant: every sender's sequence is well formed. -/
def InvOK (m : MQ) : Prop := ∀ a : Nat, seqOK (mqFind m a) = true

/-- The states reachable from the empty queue through the public
operations, with every input nonce a `uint64` value. -/
inductive Reachable : MQ → Prop where
  | init : Reachable []
  | enq (m : MQ) (msg : SignedMessage) (stamp : Nat) :
      Reachable m → msg.nonce < U64 → Reachable (Enqueue m msg stamp).1
  | req (m : MQ) (msg : SignedMessage) (stamp : Nat) :
      Reachable m → msg.nonce < U64 → Reachable (Requeue m msg stamp).1
  | rem (m : MQ) (s n : Nat) : Reachable m → Reachable (RemoveNext m s n).mq
  | clr (m : MQ) (s : Nat) : Reachable m → Reachable (Clear m s).1
  | exp (m : MQ) (k : Nat) : Reachable m → Reachable (ExpireBefore m k).1

/-- Unique keys: automatic for a Go map, an explicit hypothesis for the
association-list model. -/
abbrev WF (m : MQ) : Prop := (m.map (fun p => p.1)).Nodup

/-- Default entry used with `List.getD` when indexing sequences. -/
def dQM : QueuedMessage := ⟨⟨0, 0⟩, 0⟩

theorem mqFind_mqSet (m : MQ) (s : Nat) (q : List QueuedMessage) (a : Nat) :
    mqFind (mqSet m s q) a = if a = s then q else mqFind m a := by
  induction m with
  | nil =>
    simp only [mqSet, mqFind]
    by_cases h : a = s
    · simp [h]
    · have h2 : ¬s = a := fun hh => h hh.symm
      simp [h, h2]
  | cons p rest ih =>
    simp only [mqSet]
    by_cases hp : p.1 = s
    · subst hp
      simp only [if_pos rfl, mqFind]
      by_cases ha : a = p.1
      · simp [ha]
      · have h2 : ¬p.1 = a := fun hh => ha hh.symm
        simp [ha, h2]
    · simp only [if_neg hp, mqFind]
      by_cases ha : p.1 = a
      · have h2 : ¬a = s := by
          intro hh; exact hp (by rw [ha, hh])
        simp [ha, h2]
      · simp [ha, ih]

theorem mqSet_mqSet (m : MQ) (s : Nat) (q r : List QueuedMessage) :
    mqSet (mqSet m s q) s r = mqSet m s r := by
  induction m with
  | nil => simp [mqSet]
  | cons p rest ih =>
    simp only [mqSet]
    by_cases hp : p.1 = s
    · simp [hp, mqSet]
    · simp [hp, mqSet, ih]

theorem mqSet_key_mem (m : MQ) (s : Nat) (q : List QueuedMessage) :
    s ∈ (mqSet m s q).map (fun p => p.1) := by
  induction m with
  | nil => simp [mqSet]
  | cons p rest ih =>
    simp only [mqSet]
    by_cases hp : p.1 = s
    · simp [hp]
    · simp only [if_neg hp, List.map_cons, List.mem_cons]
      exact Or.inr ih

theorem mqFind_mqDelete (m : MQ) (s a : Nat) :
    mqFind (mqDelete m s) a = if a = s then [] else mqFind m a := by
  induction m with
  | nil => simp [mqDelete, mqFind]
  | cons p rest ih =>
    simp only [mqDelete, List.filter] at ih ⊢
    by_cases hp : p.1 = s
    · simp only [hp, bne_self_eq_false]
      rw [ih]
      by_cases ha : a = s
      · simp [ha]
      · simp only [if_neg ha, mqFind]
        have : ¬p.1 = a := by rw [hp]; intro h2; exact ha h2.symm
        simp [this]
    · have : (p.1 != s) = true := bne_iff_ne.mpr hp
      simp only [this, mqFind]
      by_cases ha : p.1 = a
      · have : ¬a = s := by intro h2; exact hp (by rw [ha, h2])
        simp [ha, this]
      · simp [ha, ih]

theorem mqDelete_key_not_mem (m : MQ) (s : Nat) :
    s ∉ (mqDelete m s).map (fun p => p.1) := by
  intro hmem
  rcases List.mem_map.mp hmem with ⟨p, hp, hps⟩
  have := List.of_mem_filter hp
  rw [hps] at this
  exact (bne_iff_ne.mp this) rfl

theorem mqFind_expire (m : MQ) (k a : Nat) :
    mqFind (ExpireBefore m k).1 a = expireSeq k (mqFind m a) := by
  induction m with
  | nil => simp [ExpireBefore, mqFind, expireSeq]
  | cons p rest ih =>
    simp only [ExpireBefore, List.map_cons, mqFind] at ih ⊢
    by_cases hp : p.1 = a
    · simp [hp]
    · simp [hp, ih]

theorem mqFind_eq_nil_of_not_mem (m : MQ) (a : Nat)
    (h : a ∉ m.map (fun p => p.1)) : mqFind m a = [] := by
  induction m with
  | nil => rfl
  | cons p rest ih =>
    simp only [List.map_cons, List.mem_cons] at h
    push_neg at h
    simp only [mqFind]
    have : ¬p.1 = a := fun hh => h.1 hh.symm
    simp [this, ih h.2]

theorem exFind_expire_not_mem (m : MQ) (k a : Nat)
    (h : a ∉ m.map (fun p => p.1)) : exFind (ExpireBefore m k).2 a = none := by
  induction m with
  | nil => rfl
  | cons p rest ih =>
    simp only [List.map_cons, List.mem_cons] at h
    push_neg at h
    simp only [ExpireBefore, List.filterMap_cons] at ih ⊢
    have hne : ¬p.1 = a := fun hh => h.1 hh.symm
    cases hq : p.2 with
    | nil => exact ih h.2
    | cons hd tl =>
      by_cases hs : hd.stamp < k
      · simp only [if_pos hs, exFind, hne, if_neg hne]
        exact ih h.2
      · simp only [if_neg hs]
        exact ih h.2

theorem exFind_expire (m : MQ) (k a : Nat) (hwf : WF m) :
    exFind (ExpireBefore m k).2 a =
      (match mqFind m a with
       | [] => none
       | hd :: tl =>
         if hd.stamp < k then some ((hd :: tl).map (fun qm => qm.msg)) else none) := by
  induction m with
  | nil => rfl
  | cons p rest ih =>
    have hwf2 : WF rest := (List.nodup_cons.mp hwf).2
    have hpk : p.1 ∉ rest.map (fun q => q.1) := (List.nodup_cons.mp hwf).1
    simp only [ExpireBefore, List.filterMap_cons, mqFind] at ih ⊢
    by_cases hp : p.1 = a
    · subst hp
      simp only [if_pos rfl]
      cases hq : p.2 with
      | nil =>
        simpa using exFind_expire_not_mem rest k p.1 hpk
      | cons hd tl =>
        by_cases hs : hd.stamp < k
        · simp [hs, exFind]
        · simp only [if_neg hs]
          simpa [hs] using exFind_expire_not_mem rest k p.1 hpk
    · simp only [if_neg hp]
      cases hq : p.2 with
      | nil => exact ih hwf2
      | cons hd tl =>
        by_cases hs : hd.stamp < k
        · simp only [if_pos hs, exFind, hp, if_neg hp]
          exact ih hwf2
        · simp only [if_neg hs]
          exact ih hwf2

theorem uadd1_lt (n : Nat) : uadd1 n < U64 :=
  Nat.mod_lt _ (by decide)

theorem usub1_lt (n : Nat) : usub1 n < U64 :=
  Nat.mod_lt _ (by decide)

theorem uadd1_usub1 (n : Nat) (h : n < U64) : uadd1 (usub1 n) = n := by
  simp only [uadd1, usub1, U64] at h ⊢
  omega

theorem uadd1_of_lt (n : Nat) (h : n + 1 < U64) : uadd1 n = n + 1 := by
  simp only [uadd1, U64] at h ⊢
  omega

theorem contigb_tail (a : QueuedMessage) (t : List QueuedMessage)
    (h : contigb (a :: t) = true) : contigb t = true := by
  cases t with
  | nil => rfl
  | cons b t2 =>
    simp only [contigb, Bool.and_eq_true] at h
    exact h.2

theorem contigb_cons_cons (a b : QueuedMessage) (t : List QueuedMessage)
    (h : contigb (a :: b :: t) = true) : b.msg.nonce = uadd1 a.msg.nonce := by
  simp only [contigb, Bool.and_eq_true, beq_iff_eq] at h
  exact h.1

theorem contigb_append_last (q : List QueuedMessage) (lastQ n : QueuedMessage)
    (hc : contigb q = true) (hl : q.getLast? = some lastQ)
    (hn : n.msg.nonce = uadd1 lastQ.msg.nonce) : contigb (q ++ [n]) = true := by
  induction q with
  | nil => simp at hl
  | cons a t ih =>
    cases t with
    | nil =>
      simp only [List.getLast?_singleton, Option.some.injEq] at hl
      subst hl
      simp [contigb, hn]
    | cons b t2 =>
      have h1 := contigb_cons_cons a b t2 hc
      have h2 := contigb_tail a (b :: t2) hc
      have hl2 : (b :: t2).getLast? = some lastQ := by
        rw [← hl]; exact List.getLast?_cons_cons.symm
      have := ih h2 hl2
      simpa [contigb, h1] using this

theorem contigb_getD (q : List QueuedMessage) (hc : contigb q = true)
    (i : Nat) (h : i + 1 < q.length) :
    (q.getD (i + 1) dQM).msg.nonce = uadd1 ((q.getD i dQM).msg.nonce) := by
  induction q generalizing i with
  | nil => simp at h
  | cons a t ih =>
    cases t with
    | nil => simp at h
    | cons b t2 =>
      cases i with
      | zero =>
        simpa using contigb_cons_cons a b t2 hc
      | succ j =>
        have h2 : j + 1 < (b :: t2).length := by
          simpa using Nat.lt_of_succ_lt_succ h
        simpa using ih (contigb_tail a (b :: t2) hc) j h2

theorem seqOK_contigb (q : List QueuedMessage) (h : seqOK q = true) :
    contigb q = true := by
  simp only [seqOK, Bool.and_eq_true] at h
  exact h.1

theorem seqOK_bound (q : List QueuedMessage) (h : seqOK q = true)
    (qm : QueuedMessage) (hmem : qm ∈ q) : qm.msg.nonce < U64 := by
  simp only [seqOK, Bool.and_eq_true, List.all_eq_true, decide_eq_true_eq] at h
  exact h.2 qm hmem

theorem seqOK_nil : seqOK [] = true := rfl

theorem seqOK_singleton (qm : QueuedMessage) (h : qm.msg.nonce < U64) :
    seqOK [qm] = true := by
  simp [seqOK, contigb, h]

theorem seqOK_tail (a : QueuedMessage) (t : List QueuedMessage)
    (h : seqOK (a :: t) = true) : seqOK t = true := by
  simp only [seqOK, Bool.and_eq_true, List.all_cons] at h ⊢
  exact ⟨contigb_tail a t h.1, h.2.2⟩

theorem seqOK_append (q : List QueuedMessage) (lastQ : QueuedMessage)
    (msg : SignedMessage) (stamp : Nat) (hok : seqOK q = true)
    (hl : q.getLast? = some lastQ) (hn : msg.nonce = uadd1 lastQ.msg.nonce) :
    seqOK (q ++ [(⟨msg, stamp⟩ : QueuedMessage)]) = true := by
  simp only [seqOK, Bool.and_eq_true, List.all_append, List.all_cons,
    List.all_nil, Bool.and_true, decide_eq_true_eq] at hok ⊢
  refine ⟨contigb_append_last q lastQ ⟨msg, stamp⟩ hok.1 hl hn, hok.2, ?_⟩
  rw [hn]; exact uadd1_lt lastQ.msg.nonce

theorem seqOK_cons (hd : QueuedMessage) (t : List QueuedMessage)
    (msg : SignedMessage) (stamp : Nat) (hok : seqOK (hd :: t) = true)
    (hn : msg.nonce = usub1 hd.msg.nonce) :
    seqOK ((⟨msg, stamp⟩ : QueuedMessage) :: hd :: t) = true := by
  have hhd : hd.msg.nonce < U64 := seqOK_bound _ hok hd (by simp)
  simp only [seqOK, Bool.and_eq_true, List.all_cons, decide_eq_true_eq] at hok ⊢
  refine ⟨?_, ?_, hok.2⟩
  · simp only [contigb, Bool.and_eq_true, beq_iff_eq]
    exact ⟨by rw [hn, uadd1_usub1 hd.msg.nonce hhd], hok.1⟩
  · rw [hn]; exact usub1_lt hd.msg.nonce

theorem inv_nil : InvOK [] := by
  intro a
  rfl

theorem inv_enqueue (m : MQ) (msg : SignedMessage) (stamp : Nat)
    (h : InvOK m) (hn : msg.nonce < U64) : InvOK (Enqueue m msg stamp).1 := by
  simp only [Enqueue]
  cases hq : (mqFind m msg.sender).getLast? with
  | none =>
    have hnil : mqFind m msg.sender = [] := by
      cases hq2 : mqFind m msg.sender with
      | nil => rfl
      | cons x t => rw [hq2] at hq; simp at hq
    intro a
    simp only [hnil, List.nil_append]
    rw [mqFind_mqSet]
    by_cases ha : a = msg.sender
    · simp only [if_pos ha]
      exact seqOK_singleton ⟨msg, stamp⟩ hn
    · simp only [if_neg ha]
      exact h a
  | some lastQ =>
    by_cases hne : msg.nonce = uadd1 lastQ.msg.nonce
    · simp only [hne, ne_eq, not_true_eq_false, if_false, ite_false]
      intro a
      rw [mqFind_mqSet]
      by_cases ha : a = msg.sender
      · simp only [if_pos ha]
        exact seqOK_append (mqFind m msg.sender) lastQ msg stamp
          (h msg.sender) hq hne
      · simp only [if_neg ha]
        exact h a
    · simp only [ne_eq, hne, not_false_eq_true, if_true, ite_true]
      exact h

theorem inv_requeue (m : MQ) (msg : SignedMessage) (stamp : Nat)
    (h : InvOK m) (hn : msg.nonce < U64) : InvOK (Requeue m msg stamp).1 := by
  simp only [Requeue]
  cases hq : mqFind m msg.sender with
  | nil =>
    intro a
    rw [mqFind_mqSet]
    by_cases ha : a = msg.sender
    · simp only [if_pos ha]
      exact seqOK_singleton ⟨msg, stamp⟩ hn
    · simp only [if_neg ha]
      exact h a
  | cons hd tl =>
    by_cases hne : msg.nonce = usub1 hd.msg.nonce
    · simp only [hne, ne_eq, not_true_eq_false, if_false, ite_false]
      intro a
      rw [mqFind_mqSet]
      by_cases ha : a = msg.sender
      · simp only [if_pos ha]
        have hok : seqOK (hd :: tl) = true := by
          have := h msg.sender; rw [hq] at this; exact this
        exact seqOK_cons hd tl msg stamp hok hne
      · simp only [if_neg ha]
        exact h a
    · simp only [ne_eq, hne, not_false_eq_true, if_true, ite_true]
      exact h

theorem inv_removeNext (m : MQ) (s n : Nat)
    (h : InvOK m) : InvOK (RemoveNext m s n).mq := by
  simp only [RemoveNext]
  cases hq : mqFind m s with
  | nil => exact h
  | cons hd tl =>
    by_cases he : n = hd.msg.nonce
    · simp only [if_pos he]
      intro a
      rw [mqFind_mqSet]
      by_cases ha : a = s
      · simp only [if_pos ha]
        have hok : seqOK (hd :: tl) = true := by
          have := h s; rw [hq] at this; exact this
        exact seqOK_tail hd tl hok
      · simp only [if_neg ha]
        exact h a
    · by_cases hlt : hd.msg.nonce < n
      · simp only [if_neg he, if_pos hlt]
        exact h
      · simp only [if_neg he, if_neg hlt]
        exact h

theorem inv_clear (m : MQ) (s : Nat) (h : InvOK m) : InvOK (Clear m s).1 := by
  intro a
  simp only [Clear]
  rw [mqFind_mqDelete]
  by_cases ha : a = s
  · simp [ha, seqOK_nil]
  · simp only [if_neg ha]
    exact h a

theorem inv_expire (m : MQ) (k : Nat) (h : InvOK m) :
    InvOK (ExpireBefore m k).1 := by
  intro a
  rw [mqFind_expire]
  cases hq : mqFind m a with
  | nil => exact seqOK_nil
  | cons hd tl =>
    have hok : seqOK (hd :: tl) = true := by
      have := h a; rw [hq] at this; exact this
    simp only [expireSeq]
    by_cases hs : hd.stamp < k
    · simp [hs, seqOK_nil]
    · simp only [if_neg hs]
      exact hok

theorem reachable_inv (m : MQ) (hr : Reachable m) : InvOK m := by
  induction hr with
  | init => exact inv_nil
  | enq m2 msg stamp _ hn ih => exact inv_enqueue m2 msg stamp ih hn
  | req m2 msg stamp _ hn ih => exact inv_requeue m2 msg stamp ih hn
  | rem m2 s n _ ih => exact inv_removeNext m2 s n ih
  | clr m2 s _ ih => exact inv_clear m2 s ih
  | exp m2 k _ ih => exact inv_expire m2 k ih

/-- C1, counterexample: the claim demands `q[i+1].nonce == q[i].nonce + 1`
with the run strictly ascending, but starting from the empty queue,
enqueuing nonce `2^64 - 1` and then nonce `0` both succeed (the Go
`uint64` increment wraps), producing the sequence `[2^64 - 1, 0]`, whose
second nonce is neither the mathematical successor of the first nor
larger than it. -/
theorem strict_contiguity_counterexample :
    (Enqueue [] ⟨0, U64 - 1⟩ 7).2 = false ∧
    (Enqueue (Enqueue [] ⟨0, U64 - 1⟩ 7).1 ⟨0, 0⟩ 8).2 = false ∧
    mqFind (Enqueue (Enqueue [] ⟨0, U64 - 1⟩ 7).1 ⟨0, 0⟩ 8).1 0
      = [⟨⟨0, U64 - 1⟩, 7⟩, ⟨⟨0, 0⟩, 8⟩] ∧
    ((mqFind (Enqueue (Enqueue [] ⟨0, U64 - 1⟩ 7).1 ⟨0, 0⟩ 8).1 0).getD 1 dQM).msg.nonce
      ≠ ((mqFind (Enqueue (Enqueue [] ⟨0, U64 - 1⟩ 7).1 ⟨0, 0⟩ 8).1 0).getD 0 dQM).msg.nonce + 1 ∧
    ¬ ((mqFind (Enqueue (Enqueue [] ⟨0, U64 - 1⟩ 7).1 ⟨0, 0⟩ 8).1 0).getD 0 dQM).msg.nonce
      < ((mqFind (Enqueue (Enqueue [] ⟨0, U64 - 1⟩ 7).1 ⟨0, 0⟩ 8).1 0).getD 1 dQM).msg.nonce := by
  decide

/-- C1, amended: at every state reachable through the public operations,
every sender's sequence is contiguous in `uint64` arithmetic: for every
valid index `i`, `q[i+1].nonce == (q[i].nonce + 1) mod 2^64`. -/
theorem reachable_contiguity_mod (m : MQ) (hr : Reachable m) (a i : Nat)
    (h : i + 1 < (mqFind m a).length) :
    ((mqFind m a).getD (i + 1) dQM).msg.nonce
      = uadd1 (((mqFind m a).getD i dQM).msg.nonce) :=
  contigb_getD (mqFind m a) (seqOK_contigb _ (reachable_inv m hr a)) i h

/-- C1 witness: the amended contiguity at the concrete reachable state
obtained by enqueueing nonces 5 then 6 for sender 0. -/
theorem reachable_contiguity_mod_witness :
    ((mqFind (Enqueue (Enqueue [] ⟨0, 5⟩ 50).1 ⟨0, 6⟩ 51).1 0).getD 1 dQM).msg.nonce
      = uadd1 (((mqFind (Enqueue (Enqueue [] ⟨0, 5⟩ 50).1 ⟨0, 6⟩ 51).1 0).getD 0 dQM).msg.nonce) :=
  reachable_contiguity_mod _
    (Reachable.enq _ _ _ (Reachable.enq _ _ _ Reachable.init (by decide)) (by decide))
    0 0 (by decide)

/-- C2, confirmed: `RemoveNext` acts by trichotomy against the front of the
sender's sequence: an equal expected nonce pops the front and returns it
with `found = true` and no error; a smaller expected nonce returns
`found = false` with no error and the state unchanged; a larger expected
nonce returns `found = false` with the inconsistency error and the state
unchanged; an empty or absent sequence returns `found = false` with no
error and the state unchanged. -/
theorem removeNext_trichotomy (m : MQ) (s n : Nat) :
    (mqFind m s = [] → RemoveNext m s n = ⟨m, none, false, false⟩) ∧
    (∀ hd tl, mqFind m s = hd :: tl →
      ((n = hd.msg.nonce →
          RemoveNext m s n = ⟨mqSet m s tl, some hd.msg, true, false⟩) ∧
       (n < hd.msg.nonce → RemoveNext m s n = ⟨m, none, false, false⟩) ∧
       (hd.msg.nonce < n → RemoveNext m s n = ⟨m, none, false, true⟩))) := by
  constructor
  · intro hq
    simp [RemoveNext, hq]
  · intro hd tl hq
    refine ⟨?_, ?_, ?_⟩
    · intro he
      simp [RemoveNext, hq, he]
    · intro hlt
      have h1 : ¬n = hd.msg.nonce := Nat.ne_of_lt hlt
      have h2 : ¬hd.msg.nonce < n := Nat.lt_asymm hlt
      simp [RemoveNext, hq, h1, h2]
    · intro hgt
      have h1 : ¬n = hd.msg.nonce := (Nat.ne_of_lt hgt).symm
      simp [RemoveNext, hq, h1, hgt]

/-- C2 witness: popping nonce 5 off the singleton sequence of sender 0. -/
theorem removeNext_trichotomy_witness :
    RemoveNext [(0, [⟨⟨0, 5⟩, 50⟩])] 0 5
      = ⟨mqSet [(0, [⟨⟨0, 5⟩, 50⟩])] 0 [], some ⟨0, 5⟩, true, false⟩ :=
  ((removeNext_trichotomy [(0, [⟨⟨0, 5⟩, 50⟩])] 0 5).2
    ⟨⟨0, 5⟩, 50⟩ [] (by decide)).1 (by decide)

/-- C3, confirmed: `Enqueue` fails exactly when the sender's sequence is
non-empty and the nonce is not the `uint64` successor of the back nonce,
`Requeue` fails exactly when the sender's sequence is non-empty and the
nonce is not the `uint64` predecessor of the front nonce, every failure
leaves the state unchanged, and an empty or absent sequence accepts any
nonce. -/
theorem nonceGap_iff (m : MQ) (msg : SignedMessage) (stamp : Nat) :
    ((Enqueue m msg stamp).2 = true ↔
      ∃ lastQ, (mqFind m msg.sender).getLast? = some lastQ ∧
        msg.nonce ≠ uadd1 lastQ.msg.nonce) ∧
    ((Enqueue m msg stamp).2 = true → (Enqueue m msg stamp).1 = m) ∧
    (mqFind m msg.sender = [] → (Enqueue m msg stamp).2 = false) ∧
    ((Requeue m msg stamp).2 = true ↔
      ∃ hd tl, mqFind m msg.sender = hd :: tl ∧ msg.nonce ≠ usub1 hd.msg.nonce) ∧
    ((Requeue m msg stamp).2 = true → (Requeue m msg stamp).1 = m) ∧
    (mqFind m msg.sender = [] → (Requeue m msg stamp).2 = false) := by
  refine ⟨?_, ?_, ?_, ?_, ?_, ?_⟩
  · cases hq : (mqFind m msg.sender).getLast? with
    | none => simp [Enqueue, hq]
    | some lastQ =>
      by_cases hne : msg.nonce = uadd1 lastQ.msg.nonce
      · simp [Enqueue, hq, hne]
      · simp [Enqueue, hq, hne]
  · cases hq : (mqFind m msg.sender).getLast? with
    | none => simp [Enqueue, hq]
    | some lastQ =>
      by_cases hne : msg.nonce = uadd1 lastQ.msg.nonce
      · simp [Enqueue, hq, hne]
      · simp [Enqueue, hq, hne]
  · intro hq
    have : (mqFind m msg.sender).getLast? = none := by rw [hq]; rfl
    simp [Enqueue, this]
  · cases hq : mqFind m msg.sender with
    | nil => simp [Requeue, hq]
    | cons hd tl =>
      by_cases hne : msg.nonce = usub1 hd.msg.nonce
      · simp [Requeue, hq, hne]
      · simp only [Requeue, hq, ne_eq, hne, not_false_eq_true, if_true, ite_true]
        constructor
        · intro _
          exact ⟨hd, tl, rfl, hne⟩
        · intro _
          trivial
  · cases hq : mqFind m msg.sender with
    | nil => simp [Requeue, hq]
    | cons hd tl =>
      by_cases hne : msg.nonce = usub1 hd.msg.nonce
      · simp [Requeue, hq, hne]
      · simp [Requeue, hq, hne]
  · intro hq
    simp [Requeue, hq]

/-- C3 witness: enqueueing nonce 9 against back nonce 5 fails and leaves
the state unchanged. -/
theorem nonceGap_iff_witness :
    (Enqueue [(0, [⟨⟨0, 5⟩, 50⟩])] ⟨0, 9⟩ 7).1 = [(0, [⟨⟨0, 5⟩, 50⟩])] :=
  (nonceGap_iff [(0, [⟨⟨0, 5⟩, 50⟩])] ⟨0, 9⟩ 7).2.1 (by decide)

/-- C4, confirmed: `ExpireBefore k` empties the sequence of every sender
whose non-empty sequence has front stamp `< k` and moves all its
messages into the returned map under that sender; a sender whose front
stamp is `>= k` keeps its sequence unchanged (whatever its interior
stamps) and does not appear in the returned map; a sender with an empty
or absent sequence is unchanged and does not appear in the returned
map. -/
theorem expireBefore_spec (m : MQ) (k : Nat) (hwf : WF m) (a : Nat) :
    (∀ hd tl, mqFind m a = hd :: tl → hd.stamp < k →
       mqFind (ExpireBefore m k).1 a = [] ∧
       exFind (ExpireBefore m k).2 a = some ((hd :: tl).map (fun qm => qm.msg))) ∧
    (∀ hd tl, mqFind m a = hd :: tl → k ≤ hd.stamp →
       mqFind (ExpireBefore m k).1 a = hd :: tl ∧
       exFind (ExpireBefore m k).2 a = none) ∧
    (mqFind m a = [] →
       mqFind (ExpireBefore m k).1 a = [] ∧ exFind (ExpireBefore m k).2 a = none) := by
  refine ⟨?_, ?_, ?_⟩
  · intro hd tl hq hs
    constructor
    · rw [mqFind_expire, hq]
      simp [expireSeq, hs]
    · rw [exFind_expire m k a hwf, hq]
      simp [hs]
  · intro hd tl hq hs
    have hs2 : ¬hd.stamp < k := Nat.not_lt.mpr hs
    constructor
    · rw [mqFind_expire, hq]
      simp [expireSeq, hs2]
    · rw [exFind_expire m k a hwf, hq]
      simp [hs2]
  · intro hq
    constructor
    · rw [mqFind_expire, hq]
      rfl
    · rw [exFind_expire m k a hwf, hq]

/-- C4 witness: with sender 0 holding stamps `[50, 200]` and sender 1
holding `[150]`, expiring before 100 drains sender 0 entirely (interior
stamp 200 notwithstanding) and returns its two messages. -/
theorem expireBefore_spec_witness :
    mqFind (ExpireBefore [(0, [⟨⟨0, 1⟩, 50⟩, ⟨⟨0, 2⟩, 200⟩]), (1, [⟨⟨1, 1⟩, 150⟩])] 100).1 0 = [] ∧
    exFind (ExpireBefore [(0, [⟨⟨0, 1⟩, 50⟩, ⟨⟨0, 2⟩, 200⟩]), (1, [⟨⟨1, 1⟩, 150⟩])] 100).2 0
      = some [⟨0, 1⟩, ⟨0, 2⟩] :=
  (expireBefore_spec [(0, [⟨⟨0, 1⟩, 50⟩, ⟨⟨0, 2⟩, 200⟩]), (1, [⟨⟨1, 1⟩, 150⟩])] 100
    (by decide) 0).1 ⟨⟨0, 1⟩, 50⟩ [⟨⟨0, 2⟩, 200⟩] (by decide) (by decide)

/-- C5, code evaluated at the failing input: after enqueueing one message
for sender 0 and expiring it, the sender remains as a drained key, and
`Queues` returns that address even though it has no messages — against
the source comment "returns the addresses associated with each non-empty
queue" — while `Size` and `LargestNonce` do treat the drained sender as
empty. -/
theorem queues_drained_eval :
    (Enqueue [] ⟨0, 5⟩ 50).2 = false ∧
    (ExpireBefore (Enqueue [] ⟨0, 5⟩ 50).1 100).1 = [(0, [])] ∧
    Queues (ExpireBefore (Enqueue [] ⟨0, 5⟩ 50).1 100).1 = [0] ∧
    Size (ExpireBefore (Enqueue [] ⟨0, 5⟩ 50).1 100).1 = 0 ∧
    LargestNonce (ExpireBefore (Enqueue [] ⟨0, 5⟩ 50).1 100).1 0 = (0, false) := by
  decide

/-- C6, code evaluated at the failing input: `Oldest` is 0 for the empty
map and is the minimum stamp over all entries when messages exist (50 in
the two-sender example), but on a drained state with zero messages and a
retained key it returns the `2^64 - 1` start value of the fold instead
of the documented 0. -/
theorem oldest_drained_eval :
    Oldest [] = 0 ∧
    Oldest [(0, [⟨⟨0, 1⟩, 50⟩, ⟨⟨0, 2⟩, 200⟩]), (1, [⟨⟨1, 1⟩, 150⟩])] = 50 ∧
    Size (ExpireBefore (Enqueue [] ⟨0, 5⟩ 50).1 100).1 = 0 ∧
    Oldest (ExpireBefore (Enqueue [] ⟨0, 5⟩ 50).1 100).1 = U64 - 1 := by
  decide

/-- C7, counterexample: with sender 0 already holding nonce 0, enqueueing
nonce 1 succeeds but `RemoveNext 0 1` targets the front (nonce 0), so it
returns `found = false` with the inconsistency error and the queue is
not restored; moreover even from a state where the sender was absent,
the enqueue/remove pair leaves the sender behind as a drained key, so
the final map differs from the original. -/
theorem roundtrip_counterexample :
    (Enqueue [] ⟨0, 0⟩ 0).1 = [(0, [⟨⟨0, 0⟩, 0⟩])] ∧
    (Enqueue [(0, [⟨⟨0, 0⟩, 0⟩])] ⟨0, 1⟩ 9).2 = false ∧
    (RemoveNext (Enqueue [(0, [⟨⟨0, 0⟩, 0⟩])] ⟨0, 1⟩ 9).1 0 1).found = false ∧
    (RemoveNext (Enqueue [(0, [⟨⟨0, 0⟩, 0⟩])] ⟨0, 1⟩ 9).1 0 1).err = true ∧
    (RemoveNext (Enqueue [(0, [⟨⟨0, 0⟩, 0⟩])] ⟨0, 1⟩ 9).1 0 1).mq ≠ [(0, [⟨⟨0, 0⟩, 0⟩])] ∧
    (Enqueue [] ⟨0, 5⟩ 3).2 = false ∧
    (RemoveNext (Enqueue [] ⟨0, 5⟩ 3).1 0 5).mq = [(0, [])] ∧
    [(0, ([] : List QueuedMessage))] ≠ ([] : MQ) := by
  decide

/-- C7, amended: when the sender's sequence is empty or absent, the
enqueue succeeds, the immediate `RemoveNext` on the message's nonce
returns that message with `found = true` and no error, and afterwards
every sender's sequence equals its sequence before the enqueue (the
enqueued sender's key may remain present, bound to the empty
sequence). -/
theorem roundtrip_empty (m : MQ) (msg : SignedMessage) (stamp : Nat) (a : Nat)
    (hempty : mqFind m msg.sender = []) :
    (Enqueue m msg stamp).2 = false ∧
    RemoveNext (Enqueue m msg stamp).1 msg.sender msg.nonce
      = ⟨mqSet m msg.sender [], some msg, true, false⟩ ∧
    mqFind (mqSet m msg.sender []) a = mqFind m a := by
  have hlast : (mqFind m msg.sender).getLast? = none := by rw [hempty]; rfl
  have h1 : (Enqueue m msg stamp).1 = mqSet m msg.sender [⟨msg, stamp⟩] := by
    simp [Enqueue, hlast, hempty]
  have h2 : (Enqueue m msg stamp).2 = false := by
    simp [Enqueue, hlast]
  refine ⟨h2, ?_, ?_⟩
  · rw [h1]
    have hf : mqFind (mqSet m msg.sender [⟨msg, stamp⟩]) msg.sender
        = [⟨msg, stamp⟩] := by
      rw [mqFind_mqSet]; simp
    simp only [RemoveNext, hf]
    rw [if_pos trivial, mqSet_mqSet]
  · rw [mqFind_mqSet]
    by_cases ha : a = msg.sender
    · simp [ha, hempty]
    · simp [ha]

/-- C7 witness: round-trip of nonce 5 for sender 0 starting from the empty
queue. -/
theorem roundtrip_empty_witness :
    (Enqueue [] ⟨0, 5⟩ 3).2 = false ∧
    RemoveNext (Enqueue [] ⟨0, 5⟩ 3).1 0 5
      = ⟨mqSet [] 0 [], some ⟨0, 5⟩, true, false⟩ ∧
    mqFind (mqSet [] 0 []) 1 = mqFind [] 1 :=
  roundtrip_empty [] ⟨0, 5⟩ 3 1 (by decide)

/-- C8, counterexample: in the reachable wrap-around state whose sequence
for sender 0 is `[2^64 - 1, 0]`, the first `RemoveNext 0 (2^64 - 1)`
pops with `found = true` and no error, but the second identical call
hits front nonce 0 with an expected nonce greater than it, so it reports
the inconsistency error instead of the claimed silent `found = false`. -/
theorem removeNext_idem_counterexample :
    (Enqueue [] ⟨0, U64 - 1⟩ 0).2 = false ∧
    (Enqueue (Enqueue [] ⟨0, U64 - 1⟩ 0).1 ⟨0, 0⟩ 0).2 = false ∧
    (RemoveNext (Enqueue (Enqueue [] ⟨0, U64 - 1⟩ 0).1 ⟨0, 0⟩ 0).1 0 (U64 - 1)).found = true ∧
    (RemoveNext (Enqueue (Enqueue [] ⟨0, U64 - 1⟩ 0).1 ⟨0, 0⟩ 0).1 0 (U64 - 1)).err = false ∧
    (RemoveNext (Enqueue (Enqueue [] ⟨0, U64 - 1⟩ 0).1 ⟨0, 0⟩ 0).1 0 (U64 - 1)).msg
      = some ⟨0, U64 - 1⟩ ∧
    (RemoveNext
      (RemoveNext (Enqueue (Enqueue [] ⟨0, U64 - 1⟩ 0).1 ⟨0, 0⟩ 0).1 0 (U64 - 1)).mq
      0 (U64 - 1)).found = false ∧
    (RemoveNext
      (RemoveNext (Enqueue (Enqueue [] ⟨0, U64 - 1⟩ 0).1 ⟨0, 0⟩ 0).1 0 (U64 - 1)).mq
      0 (U64 - 1)).err = true := by
  decide

/-- C8, amended: at any reachable state, when `RemoveNext s n` returns
`found = true` the popped message's nonce equals `n`, and — provided
`n ≠ 2^64 - 1`, so the successor nonce cannot wrap — an immediately
repeated `RemoveNext s n` returns `found = false` with no error and
leaves the state unchanged. -/
theorem removeNext_idem (m : MQ) (s n : Nat) (hr : Reachable m)
    (hn : n ≠ U64 - 1) (hfound : (RemoveNext m s n).found = true) :
    (RemoveNext m s n).msg.map (fun mm => mm.nonce) = some n ∧
    RemoveNext (RemoveNext m s n).mq s n
      = ⟨(RemoveNext m s n).mq, none, false, false⟩ := by
  have hinv := reachable_inv m hr
  rcases hq : mqFind m s with _ | ⟨hd, tl⟩
  · exfalso
    simp [RemoveNext, hq] at hfound
  · by_cases he : n = hd.msg.nonce
    · have hRN : RemoveNext m s n = ⟨mqSet m s tl, some hd.msg, true, false⟩ := by
        simp [RemoveNext, hq, he]
      rw [hRN]
      refine ⟨by simp [he], ?_⟩
      have hf2 : mqFind (mqSet m s tl) s = tl := by
        rw [mqFind_mqSet]; simp
      cases tl with
      | nil => simp [RemoveNext, hf2]
      | cons h2 t2 =>
        have hok : seqOK (hd :: h2 :: t2) = true := by
          have := hinv s; rw [hq] at this; exact this
        have hx : h2.msg.nonce = uadd1 hd.msg.nonce :=
          contigb_cons_cons hd h2 t2 (seqOK_contigb _ hok)
        have hdlt : hd.msg.nonce < U64 := seqOK_bound _ hok hd (by simp)
        have hplus : hd.msg.nonce + 1 < U64 := by
          rcases Nat.lt_or_ge (hd.msg.nonce + 1) U64 with h | h
          · exact h
          · exact absurd (by rw [he]; omega) hn
        have hx2 : h2.msg.nonce = hd.msg.nonce + 1 := by
          rw [hx, uadd1_of_lt _ hplus]
        have hne2 : ¬n = h2.msg.nonce := by
          rw [he, hx2]; omega
        have hnlt : ¬h2.msg.nonce < n := by
          rw [he, hx2]; omega
        simp [RemoveNext, hf2, hne2, hnlt]
    · exfalso
      by_cases hlt : hd.msg.nonce < n
      · simp [RemoveNext, hq, he, hlt] at hfound
      · simp [RemoveNext, hq, he, hlt] at hfound

/-- C8 witness: the amended idempotence at the reachable singleton state
holding nonce 5 for sender 0. -/
theorem removeNext_idem_witness :
    (RemoveNext (Enqueue [] ⟨0, 5⟩ 50).1 0 5).msg.map (fun mm => mm.nonce) = some 5 ∧
    RemoveNext (RemoveNext (Enqueue [] ⟨0, 5⟩ 50).1 0 5).mq 0 5
      = ⟨(RemoveNext (Enqueue [] ⟨0, 5⟩ 50).1 0 5).mq, none, false, false⟩ :=
  removeNext_idem _ 0 5 (Reachable.enq _ _ _ Reachable.init (by decide))
    (by decide) (by decide)

/-- C9, counterexample: removing the last remaining entry of a sender via
`RemoveNext` does not delete the key: starting from the reachable state
`[(0, [nonce 5])]`, the pop leaves the binding `(0, [])` in the map, so
the sender is Drained, not Absent as the claim states. -/
theorem removeNext_last_key_counterexample :
    (Enqueue [] ⟨0, 5⟩ 50).1 = [(0, [⟨⟨0, 5⟩, 50⟩])] ∧
    (RemoveNext [(0, [⟨⟨0, 5⟩, 50⟩])] 0 5).found = true ∧
    (RemoveNext [(0, [⟨⟨0, 5⟩, 50⟩])] 0 5).mq = [(0, [])] ∧
    Queues (RemoveNext [(0, [⟨⟨0, 5⟩, 50⟩])] 0 5).mq = [0] ∧
    (RemoveNext [(0, [⟨⟨0, 5⟩, 50⟩])] 0 5).mq ≠ [] := by
  decide

/-- C9, amended: `Clear s` removes `s`'s key from the mapping and returns
true exactly when `s` had at least one message; `RemoveNext` of the last
remaining entry instead leaves the key present bound to the empty
sequence (Drained, not Absent), and afterwards `LargestNonce s` returns
`(0, false)` and the listing of `s` is empty. -/
theorem clear_removeNext_last (m : MQ) (s a : Nat) :
    ((Clear m s).2 = true ↔ mqFind m s ≠ []) ∧
    (s ∉ (Clear m s).1.map (fun p => p.1)) ∧
    (mqFind (Clear m s).1 a = if a = s then [] else mqFind m a) ∧
    (∀ qm, mqFind m s = [qm] →
      (RemoveNext m s qm.msg.nonce).found = true ∧
      (RemoveNext m s qm.msg.nonce).mq = mqSet m s [] ∧
      s ∈ (RemoveNext m s qm.msg.nonce).mq.map (fun p => p.1) ∧
      LargestNonce (RemoveNext m s qm.msg.nonce).mq s = (0, false) ∧
      MQList (RemoveNext m s qm.msg.nonce).mq s = []) := by
  refine ⟨?_, ?_, ?_, ?_⟩
  · simp only [Clear]
    constructor
    · intro h hq
      rw [hq] at h
      simp at h
    · intro h
      cases hq : mqFind m s with
      | nil => exact absurd hq h
      | cons x t => simp
  · exact mqDelete_key_not_mem m s
  · simp only [Clear]
    exact mqFind_mqDelete m s a
  · intro qm hq
    have hRN : RemoveNext m s qm.msg.nonce = ⟨mqSet m s [], some qm.msg, true, false⟩ := by
      simp [RemoveNext, hq]
    rw [hRN]
    have hf : mqFind (mqSet m s []) s = [] := by
      rw [mqFind_mqSet]; simp
    exact ⟨rfl, rfl, mqSet_key_mem m s [],
      by simp [LargestNonce, hf], by simp [MQList, hf]⟩

/-- C9 witness: clearing a drained-by-pop sender 0 and popping the last
entry of the singleton state both behave as amended. -/
theorem clear_removeNext_last_witness :
    ((Clear [(0, [⟨⟨0, 5⟩, 50⟩])] 0).2 = true) ∧
    LargestNonce (RemoveNext [(0, [⟨⟨0, 5⟩, 50⟩])] 0 5).mq 0 = (0, false) :=
  ⟨(clear_removeNext_last [(0, [⟨⟨0, 5⟩, 50⟩])] 0 0).1.mpr (by decide),
    ((clear_removeNext_last [(0, [⟨⟨0, 5⟩, 50⟩])] 0 0).2.2.2
      ⟨⟨0, 5⟩, 50⟩ (by decide)).2.2.2.1⟩

/-- C10, confirmed: the nonce checks wrap in `uint64` arithmetic — after a
first message with nonce `2^64 - 1`, `Enqueue` accepts nonce 0, and
after a first message with nonce 0, `Requeue` accepts nonce `2^64 - 1`;
both produce the sequence `[2^64 - 1, 0]`, which is not strictly
ascending. -/
theorem wraparound_nonce_checks :
    (Enqueue [] ⟨0, U64 - 1⟩ 0).2 = false ∧
    (Enqueue (Enqueue [] ⟨0, U64 - 1⟩ 0).1 ⟨0, 0⟩ 0).2 = false ∧
    mqFind (Enqueue (Enqueue [] ⟨0, U64 - 1⟩ 0).1 ⟨0, 0⟩ 0).1 0
      = [⟨⟨0, U64 - 1⟩, 0⟩, ⟨⟨0, 0⟩, 0⟩] ∧
    (Enqueue [] ⟨0, 0⟩ 0).2 = false ∧
    (Requeue (Enqueue [] ⟨0, 0⟩ 0).1 ⟨0, U64 - 1⟩ 0).2 = false ∧
    mqFind (Requeue (Enqueue [] ⟨0, 0⟩ 0).1 ⟨0, U64 - 1⟩ 0).1 0
      = [⟨⟨0, U64 - 1⟩, 0⟩, ⟨⟨0, 0⟩, 0⟩] ∧
    ((mqFind (Requeue (Enqueue [] ⟨0, 0⟩ 0).1 ⟨0, U64 - 1⟩ 0).1 0).getD 1 dQM).msg.nonce
      < ((mqFind (Requeue (Enqueue [] ⟨0, 0⟩ 0).1 ⟨0, U64 - 1⟩ 0).1 0).getD 0 dQM).msg.nonce := by
  decide

end MessageQueueSpec
